import Mathlib

/-!
Verification of the `reversi_rl` board engine (`src/lib.rs`).

Shallow embedding: the 64-cell `[i8; 64]` array becomes a `List Int`
(0 = empty, 1 = black, -1 = white), `black_to_move` a `Bool`.  All `i8`
arithmetic performed by the source stays inside `[-9, 72]`, far from any
`i8` overflow, so plain `Int` models it exactly; `%` in the source is
Rust's truncated remainder, which agrees with `Int.emod` on the
non-negative operands it is applied to here.  Array indexing with a
possibly out-of-range index is modelled by an explicit bounds test whose
failure branch is `none` (the Rust panic).
-/

namespace Reversi

/-- Board state: `cells` holds the 64 cell values (`i8` in the source:
0 = empty, 1 = black, -1 = white), `black_to_move` the side to move. -/
structure Board where
  cells : List Int
  black_to_move : Bool
deriving DecidableEq, Repr

/-- A board of the Rust type always has exactly 64 cells. -/
def Board.WF (b : Board) : Prop := b.cells.length = 64

instance (b : Board) : Decidable b.WF := by
  unfold Board.WF; infer_instance

/-- The eight scan directions (king moves as row-major index offsets), in
source order: `const DIRS: [i8; 8] = [-9, -8, -7, -1, 1, 7, 8, 9]`. -/
def DIRS : List Int := [-9, -8, -7, -1, 1, 7, 8, 9]

/-- Stone of the side to move: `let my = if self.black_to_move { 1 } else { -1 }`. -/
def myStone (black : Bool) : Int := if black then 1 else -1

/-- While-loop of `is_legal` for one direction `d`: `x` is the scan position,
`cnt` the opponent stones collected so far, `c` the origin column.  Returns
`true` exactly on the source's `return true` path; `break` and falling out of
the `0..64` range give `false`.  Each iteration moves `x` by `d ≠ 0` while
staying inside `[0, 64)`, so the loop runs at most 63 iterations and fuel 64
reproduces it exactly. -/
def legalScan (cells : List Int) (my c d : Int) : Nat → Int → Nat → Bool
  | 0, _, _ => false
  | fuel + 1, x, cnt =>
    if 0 ≤ x ∧ x < 64 then
      if (d = -1 ∨ d = 7 ∨ d = -9) ∧ c < x % 8 then false
      else if (d = 1 ∨ d = -7 ∨ d = 9) ∧ x % 8 < c then false
      else
        if cells.getD x.toNat 0 = -my then
          legalScan cells my c d fuel (x + d) (cnt + 1)
        else if cells.getD x.toNat 0 = my then decide (0 < cnt)
        else false
    else false

/-- Body of `Board::is_legal` after the leading `self.cells[idx]` array
access has been checked in-bounds (the source indexes the fixed 64-cell
array directly). -/
def Board.is_legalAux (b : Board) (idx : Nat) : Bool :=
  if b.cells.getD idx 0 ≠ 0 then false
  else
    DIRS.any fun d =>
      legalScan b.cells (myStone b.black_to_move) ((idx : Int) % 8) d 64
        ((idx : Int) + d) 0

/-- Rust `Board::is_legal`.  Its first statement `self.cells[idx] != 0`
indexes the fixed array, so for `idx ≥ 64` the call panics out of bounds,
modelled as `none`. -/
def Board.is_legal (b : Board) (idx : Nat) : Option Bool :=
  if idx < 64 then some (b.is_legalAux idx) else none

/-- Rust `Board::legal_moves`: `(0..64).filter(|&i| self.is_legal(i))`;
those calls never reach the panic branch. -/
def Board.legal_moves (b : Board) : List Nat :=
  (List.range 64).filter fun i => b.is_legalAux i

/-- While-loop of `play` for one direction: collects the opponent run into
`buf`; returns the buffer to flip when the run closes with a current-side
stone, and `[]` otherwise (the source then drops `buf` without flipping).
Same fuel bound as `legalScan`. -/
def playScan (cells : List Int) (my c d : Int) : Nat → Int → List Nat → List Nat
  | 0, _, _ => []
  | fuel + 1, x, buf =>
    if 0 ≤ x ∧ x < 64 then
      if (d = -1 ∨ d = 7 ∨ d = -9) ∧ c < x % 8 then []
      else if (d = 1 ∨ d = -7 ∨ d = 9) ∧ x % 8 < c then []
      else
        if cells.getD x.toNat 0 = -my then
          playScan cells my c d fuel (x + d) (buf ++ [x.toNat])
        else if cells.getD x.toNat 0 = my then buf
        else []
    else []

/-- Committing one direction's buffer: `for i in &buf { self.cells[*i] = my }`. -/
def applyFlips (cells : List Int) (my : Int) : List Nat → List Int
  | [] => cells
  | i :: is => applyFlips (cells.set i my) my is

/-- The `for d in DIRS` loop of `play`: threads the mutated cells and the
running flip count through the eight directions in source order. -/
def playDirs (my c idxI : Int) : List Int → List Int × Nat → List Int × Nat
  | [], acc => acc
  | d :: ds, (cells, n) =>
    let buf := playScan cells my c d 64 (idxI + d) []
    playDirs my c idxI ds (applyFlips cells my buf, n + buf.length)

/-- Mutation part of `Board::play`, after the legality test has passed:
places the stone, flips every closed run, toggles the side to move; yields
the new board and the flip count. -/
def Board.playAux (b : Board) (idx : Nat) : Board × Nat :=
  let my := myStone b.black_to_move
  let res := playDirs my ((idx : Int) % 8) (idx : Int) DIRS (b.cells.set idx my, 0)
  (Board.mk res.1 (!b.black_to_move), res.2)

/-- The one caller-surfaced failure of the engine. -/
inductive PlayError where
  | illegalMove
deriving DecidableEq, Repr

/-- Rust `Board::play`: `Err("Illegal move")` when the legality test fails
(board untouched), the flip count and the mutated board on success; `none`
models the out-of-bounds panic raised inside `is_legal` when `idx ≥ 64`. -/
def Board.play (b : Board) (idx : Nat) : Option (Board × Except PlayError Nat) :=
  if idx < 64 then
    if b.is_legalAux idx then
      some ((b.playAux idx).1, Except.ok (b.playAux idx).2)
    else
      some (b, Except.error PlayError.illegalMove)
  else none

/-- Rust `Board::counts`: `(black, white)` stone counts over all 64 cells. -/
def Board.counts (b : Board) : Nat × Nat :=
  (b.cells.countP (fun s => s == 1), b.cells.countP (fun s => s == -1))

/-- Rust `Board::as_list`: a copy of the raw cells. -/
def Board.as_list (b : Board) : List Int := b.cells

/-- Rust `Board::get_black_to_move`. -/
def Board.get_black_to_move (b : Board) : Bool := b.black_to_move

/-- The starting array built by `Board::new`: central four stones
(27 and 36 white, 28 and 35 black), everything else empty. -/
def initCells : List Int :=
  (List.range 64).map fun i =>
    if i = 27 then -1 else if i = 28 then 1
    else if i = 35 then 1 else if i = 36 then -1 else 0

/-- Rust `Board::new`. -/
def Board.new : Board := ⟨initCells, true⟩

/-- Rust `Board::reset`: `*self = Self::new()`. -/
def Board.reset (_b : Board) : Board := Board.new

/-- Applying a list of moves in order, requiring each to be a clean success
(`none` as soon as one play panics or reports an illegal move). -/
def Board.playSeq (b : Board) : List Nat → Option Board
  | [] => some b
  | i :: is =>
    match b.play i with
    | some (b', Except.ok _) => b'.playSeq is
    | _ => none

/-- Total number of stones on the board, black plus white. -/
def totalP (l : List Int) : Nat :=
  l.countP (fun s => s == 1) + l.countP (fun s => s == -1)

/-- Geometric legality, modelled from the spec's words (§4.1): the target
cell is empty and along some king-move direction `(dr, dc)` a run of `n ≥ 1`
opponent stones — every one of them on the board — is immediately followed
by an on-board stone of the current side, with no empty cell or board-edge
interruption before that closing stone.  Used to compare the source's
`is_legal` against the specified geometry. -/
def kingDirs : List (Int × Int) :=
  [(-1, -1), (-1, 0), (-1, 1), (0, -1), (0, 1), (1, -1), (1, 0), (1, 1)]

/-- Membership of a (row, column) pair in the 8×8 board. -/
def onBoard (r c : Int) : Prop := 0 ≤ r ∧ r < 8 ∧ 0 ≤ c ∧ c < 8

instance (r c : Int) : Decidable (onBoard r c) := by
  unfold onBoard; infer_instance

/-- Cell value at a (row, column) pair, row-major. -/
def cellAt (cells : List Int) (r c : Int) : Int :=
  cells.getD (r * 8 + c).toNat 0

/-- Legality following the spec's geometric description, see `kingDirs`. -/
def legalSpec (b : Board) (idx : Nat) : Bool :=
  let my := myStone b.black_to_move
  let r := (idx : Int) / 8
  let c := (idx : Int) % 8
  (b.cells.getD idx 0 == 0) &&
    kingDirs.any fun dir =>
      (List.range 7).any fun k =>
        ((List.range (k + 1)).all fun j =>
          decide (onBoard (r + ((j : Int) + 1) * dir.1) (c + ((j : Int) + 1) * dir.2)) &&
            (cellAt b.cells (r + ((j : Int) + 1) * dir.1) (c + ((j : Int) + 1) * dir.2) == -my)) &&
        (decide (onBoard (r + ((k : Int) + 2) * dir.1) (c + ((k : Int) + 2) * dir.2)) &&
          (cellAt b.cells (r + ((k : Int) + 2) * dir.1) (c + ((k : Int) + 2) * dir.2) == my))

/-- Wrap counterexample board for the flip behaviour: the anti-diagonal
from cell 14 down to cell 56 is white, cell 63 is black, black to move.
Scanning direction 7 (down-left) from cell 7 walks the whole anti-diagonal
and then wraps from the corner 56 (column 0) to 63 (column 7). -/
def wrapBoardA : Board :=
  ⟨[0, 0, 0, 0, 0, 0, 0, 0,
    0, 0, 0, 0, 0, 0, -1, 0,
    0, 0, 0, 0, 0, -1, 0, 0,
    0, 0, 0, 0, -1, 0, 0, 0,
    0, 0, 0, -1, 0, 0, 0, 0,
    0, 0, -1, 0, 0, 0, 0, 0,
    0, -1, 0, 0, 0, 0, 0, 0,
    -1, 0, 0, 0, 0, 0, 0, 1], true⟩

/-- Wrap counterexample board for the legality test: cells 9–15 are white,
cell 16 is black, black to move.  Scanning direction 1 (right) from cell 8
(column 0) walks the whole row and then wraps from 15 (column 7) to 16
(column 0 of the next row). -/
def wrapBoardB : Board :=
  ⟨[0, 0, 0, 0, 0, 0, 0, 0,
    0, -1, -1, -1, -1, -1, -1, -1,
    1, 0, 0, 0, 0, 0, 0, 0,
    0, 0, 0, 0, 0, 0, 0, 0,
    0, 0, 0, 0, 0, 0, 0, 0,
    0, 0, 0, 0, 0, 0, 0, 0,
    0, 0, 0, 0, 0, 0, 0, 0,
    0, 0, 0, 0, 0, 0, 0, 0], true⟩

/-- Wrap counterexample board where a wrapped cell is itself counted in the
opponent run and flipped: cell 6 is black, cells 7–14 are white, black to
move.  Scanning direction -1 (left) from cell 15 (column 7) walks the row
down to cell 8 (column 0) and then wraps to cell 7 (column 7 of row 0),
counts it as part of the run, and closes on cell 6. -/
def wrapBoardC : Board :=
  ⟨[0, 0, 0, 0, 0, 0, 1, -1,
    -1, -1, -1, -1, -1, -1, -1, 0,
    0, 0, 0, 0, 0, 0, 0, 0,
    0, 0, 0, 0, 0, 0, 0, 0,
    0, 0, 0, 0, 0, 0, 0, 0,
    0, 0, 0, 0, 0, 0, 0, 0,
    0, 0, 0, 0, 0, 0, 0, 0,
    0, 0, 0, 0, 0, 0, 0, 0], true⟩



/-! ### Basic helper lemmas -/

lemma myStone_cases (bk : Bool) : myStone bk = 1 ∨ myStone bk = -1 := by
  cases bk <;> simp [myStone]

lemma myStone_ne_zero (bk : Bool) : myStone bk ≠ 0 := by
  cases bk <;> simp [myStone]

lemma getD_set (l : List Int) (i j : Nat) (v : Int) :
    (l.set i v).getD j 0 = if i = j ∧ i < l.length then v else l.getD j 0 := by
  rw [List.getD_eq_getElem?_getD, List.getD_eq_getElem?_getD, List.getElem?_set]
  by_cases h1 : i = j
  · subst h1
    by_cases h2 : i < l.length
    · simp [h2]
    · simp [h2, List.getElem?_eq_none (show l.length ≤ i by omega)]
  · simp [h1]

lemma countP_set (p : Int → Bool) (l : List Int) (j : Nat) (v : Int) (h : j < l.length) :
    (l.set j v).countP p + (if p (l.getD j 0) then 1 else 0)
      = l.countP p + (if p v then 1 else 0) := by
  induction l generalizing j with
  | nil => simp at h
  | cons a l ih =>
    cases j with
    | zero =>
      simp only [List.set_cons_zero, List.getD_cons_zero, List.countP_cons]
      omega
    | succ j =>
      have hj : j < l.length := by simpa using h
      have hrec := ih j hj
      simp only [List.set_cons_succ, List.getD_cons_succ, List.countP_cons]
      omega

lemma any_congr {α : Type} (l : List α) (f g : α → Bool) (h : ∀ a ∈ l, f a = g a) :
    l.any f = l.any g := by
  induction l with
  | nil => rfl
  | cons a l ih =>
    simp only [List.any_cons, h a (by simp),
      ih (fun x hx => h x (by simp [hx]))]

/-! ### Scan lemmas -/

lemma legalScan_playScan (cells : List Int) (my c d : Int) :
    ∀ (fuel : Nat) (x : Int) (cnt : Nat) (buf : List Nat), buf.length = cnt →
      legalScan cells my c d fuel x cnt = true →
      0 < (playScan cells my c d fuel x buf).length := by
  intro fuel
  induction fuel with
  | zero => intro x cnt buf hlen h; simp [legalScan] at h
  | succ fuel ih =>
    intro x cnt buf hlen h
    simp only [legalScan] at h
    simp only [playScan]
    by_cases h1 : 0 ≤ x ∧ x < 64
    · rw [if_pos h1] at h; rw [if_pos h1]
      by_cases h2 : (d = -1 ∨ d = 7 ∨ d = -9) ∧ c < x % 8
      · rw [if_pos h2] at h; exact absurd h (by simp)
      · rw [if_neg h2] at h; rw [if_neg h2]
        by_cases h3 : (d = 1 ∨ d = -7 ∨ d = 9) ∧ x % 8 < c
        · rw [if_pos h3] at h; exact absurd h (by simp)
        · rw [if_neg h3] at h; rw [if_neg h3]
          by_cases h4 : cells.getD x.toNat 0 = -my
          · rw [if_pos h4] at h; rw [if_pos h4]
            exact ih (x + d) (cnt + 1) (buf ++ [x.toNat]) (by simp [hlen]) h
          · rw [if_neg h4] at h; rw [if_neg h4]
            by_cases h5 : cells.getD x.toNat 0 = my
            · rw [if_pos h5] at h; rw [if_pos h5]
              simp only [decide_eq_true_eq] at h
              omega
            · rw [if_neg h5] at h; exact absurd h (by simp)
    · rw [if_neg h1] at h; exact absurd h (by simp)

lemma playScan_inv (cells : List Int) (my c d : Int) (hd : d ≠ 0) :
    ∀ (fuel : Nat) (x : Int) (buf : List Nat),
      buf.Nodup →
      (∀ j ∈ buf, j < 64 ∧ cells.getD j 0 = -my ∧
        (0 < d → (j : Int) < x) ∧ (d < 0 → x < (j : Int))) →
      (playScan cells my c d fuel x buf).Nodup ∧
        ∀ j ∈ playScan cells my c d fuel x buf, j < 64 ∧ cells.getD j 0 = -my := by
  intro fuel
  induction fuel with
  | zero => intro x buf hnd hb; simp [playScan]
  | succ fuel ih =>
    intro x buf hnd hb
    simp only [playScan]
    by_cases h1 : 0 ≤ x ∧ x < 64
    · rw [if_pos h1]
      by_cases h2 : (d = -1 ∨ d = 7 ∨ d = -9) ∧ c < x % 8
      · rw [if_pos h2]; simp
      · rw [if_neg h2]
        by_cases h3 : (d = 1 ∨ d = -7 ∨ d = 9) ∧ x % 8 < c
        · rw [if_pos h3]; simp
        · rw [if_neg h3]
          by_cases h4 : cells.getD x.toNat 0 = -my
          · rw [if_pos h4]
            apply ih (x + d) (buf ++ [x.toNat])
            · rw [List.nodup_append]
              refine ⟨hnd, by simp, ?_⟩
              intro j hj hj'
              have hj2 : j = x.toNat := by simpa using hj'
              have := (hb j hj).2.2
              rcases (by omega : 0 < d ∨ d < 0) with hdp | hdn
              · have := this.1 hdp; omega
              · have := this.2 hdn; omega
            · intro j hj
              rcases List.mem_append.mp hj with hj | hj
              · have := hb j hj
                exact ⟨this.1, this.2.1, fun hdp => by have := this.2.2.1 hdp; omega,
                  fun hdn => by have := this.2.2.2 hdn; omega⟩
              · have hj2 : j = x.toNat := by simpa using hj
                subst hj2
                exact ⟨by omega, h4, fun hdp => by omega, fun hdn => by omega⟩
          · rw [if_neg h4]
            by_cases h5 : cells.getD x.toNat 0 = my
            · rw [if_pos h5]
              exact ⟨hnd, fun j hj => ⟨(hb j hj).1, (hb j hj).2.1⟩⟩
            · rw [if_neg h5]; simp
    · rw [if_neg h1]; simp

lemma legalScan_congr (c1 c2 : List Int) (my c d : Int)
    (hpt : ∀ j : Nat, j < 64 → c1.getD j 0 = c2.getD j 0) :
    ∀ (fuel : Nat) (x : Int) (cnt : Nat),
      legalScan c1 my c d fuel x cnt = legalScan c2 my c d fuel x cnt := by
  intro fuel
  induction fuel with
  | zero => intro x cnt; rfl
  | succ fuel ih =>
    intro x cnt
    simp only [legalScan]
    by_cases h1 : 0 ≤ x ∧ x < 64
    · have hx : c1.getD x.toNat 0 = c2.getD x.toNat 0 := hpt x.toNat (by omega)
      rw [if_pos h1, if_pos h1, hx]
      simp only [ih]
    · rw [if_neg h1, if_neg h1]

lemma playScan_congr (c1 c2 : List Int) (my c d : Int)
    (hpt : ∀ j : Nat, j < 64 → c1.getD j 0 = c2.getD j 0) :
    ∀ (fuel : Nat) (x : Int) (buf : List Nat),
      playScan c1 my c d fuel x buf = playScan c2 my c d fuel x buf := by
  intro fuel
  induction fuel with
  | zero => intro x buf; rfl
  | succ fuel ih =>
    intro x buf
    simp only [playScan]
    by_cases h1 : 0 ≤ x ∧ x < 64
    · have hx : c1.getD x.toNat 0 = c2.getD x.toNat 0 := hpt x.toNat (by omega)
      rw [if_pos h1, if_pos h1, hx]
      simp only [ih]
    · rw [if_neg h1, if_neg h1]

lemma legalScan_set_ray (cells : List Int) (my c d v : Int) (idxN : Nat) (hd : d ≠ 0) :
    ∀ (fuel m cnt : Nat), 1 ≤ m →
      legalScan (cells.set idxN v) my c d fuel ((idxN : Int) + (m : Int) * d) cnt
        = legalScan cells my c d fuel ((idxN : Int) + (m : Int) * d) cnt := by
  intro fuel
  induction fuel with
  | zero => intro m cnt hm; rfl
  | succ fuel ih =>
    intro m cnt hm
    have hmd : (m : Int) * d ≠ 0 :=
      mul_ne_zero (by exact_mod_cast (by omega : m ≠ 0)) hd
    simp only [legalScan]
    by_cases h1 : 0 ≤ (idxN : Int) + (m : Int) * d ∧ (idxN : Int) + (m : Int) * d < 64
    · rw [if_pos h1, if_pos h1]
      have hne : idxN ≠ ((idxN : Int) + (m : Int) * d).toNat := by
        intro hEq
        apply hmd
        have h0 := h1.1
        omega
      have hacc : (cells.set idxN v).getD ((idxN : Int) + (m : Int) * d).toNat 0
          = cells.getD ((idxN : Int) + (m : Int) * d).toNat 0 := by
        rw [getD_set, if_neg]
        intro hc
        exact hne hc.1
      have hstep : (idxN : Int) + (m : Int) * d + d
          = (idxN : Int) + ((m + 1 : Nat) : Int) * d := by
        push_cast
        ring
      rw [hacc, hstep]
      simp only [ih (m + 1) (cnt + 1) (by omega)]
    · rw [if_neg h1, if_neg h1]

lemma is_legalAux_target {b : Board} {idx : Nat} (h : b.is_legalAux idx = true) :
    b.cells.getD idx 0 = 0 := by
  by_contra hne
  rw [Board.is_legalAux, if_pos hne] at h
  exact absurd h (by simp)

/-! ### Flip-application lemmas -/

lemma applyFlips_length (my : Int) :
    ∀ (buf : List Nat) (cells : List Int),
      (applyFlips cells my buf).length = cells.length := by
  intro buf
  induction buf with
  | nil => intro cells; rfl
  | cons i is ih => intro cells; rw [applyFlips, ih, List.length_set]

lemma applyFlips_getD (my : Int) :
    ∀ (buf : List Nat) (cells : List Int) (j : Nat),
      (applyFlips cells my buf).getD j 0 = cells.getD j 0 ∨
        (applyFlips cells my buf).getD j 0 = my := by
  intro buf
  induction buf with
  | nil => intro cells j; left; rfl
  | cons i is ih =>
    intro cells j
    rw [applyFlips]
    rcases ih (cells.set i my) j with h | h
    · rw [h, getD_set]
      by_cases hc : i = j ∧ i < cells.length
      · right; rw [if_pos hc]
      · left; rw [if_neg hc]
    · right; exact h

lemma applyFlips_total (my : Int) (hmy : my = 1 ∨ my = -1) :
    ∀ (buf : List Nat) (cells : List Int),
      buf.Nodup → (∀ j ∈ buf, j < cells.length ∧ cells.getD j 0 = -my) →
      totalP (applyFlips cells my buf) = totalP cells := by
  intro buf
  induction buf with
  | nil => intro cells _ _; rfl
  | cons i is ih =>
    intro cells hnd hb
    have hi := hb i (by simp)
    have hc1 := countP_set (fun s => s == 1) cells i my hi.1
    have hc2 := countP_set (fun s => s == -1) cells i my hi.1
    rw [hi.2] at hc1 hc2
    have hstep : totalP (cells.set i my) = totalP cells := by
      unfold totalP
      rcases hmy with h | h <;> subst h <;> simp at hc1 hc2 <;> omega
    have hnd' := List.nodup_cons.mp hnd
    rw [applyFlips, ih (cells.set i my) hnd'.2 ?_, hstep]
    intro j hj
    have hij : i ≠ j := fun hEq => hnd'.1 (hEq ▸ hj)
    refine ⟨by rw [List.length_set]; exact (hb j (by simp [hj])).1, ?_⟩
    rw [getD_set, if_neg (by tauto)]
    exact (hb j (by simp [hj])).2

/-! ### Direction-loop lemmas -/

lemma playDirs_cons (my c idxI d : Int) (ds : List Int) (cells : List Int) (n : Nat) :
    playDirs my c idxI (d :: ds) (cells, n)
      = playDirs my c idxI ds
          (applyFlips cells my (playScan cells my c d 64 (idxI + d) []),
            n + (playScan cells my c d 64 (idxI + d) []).length) := rfl

lemma playDirs_fst_length (my c idxI : Int) :
    ∀ (ds cells : List Int) (n : Nat),
      (playDirs my c idxI ds (cells, n)).1.length = cells.length := by
  intro ds
  induction ds with
  | nil => intro cells n; rfl
  | cons d ds ih => intro cells n; rw [playDirs_cons, ih, applyFlips_length]

lemma playDirs_total (my c idxI : Int) (hmy : my = 1 ∨ my = -1) :
    ∀ (ds : List Int), (∀ d ∈ ds, d ≠ 0) →
      ∀ (cells : List Int) (n : Nat), cells.length = 64 →
      totalP (playDirs my c idxI ds (cells, n)).1 = totalP cells := by
  intro ds
  induction ds with
  | nil => intro _ cells n _; rfl
  | cons d ds ih =>
    intro hds cells n hlen
    have hd : d ≠ 0 := hds d (by simp)
    have hinv := playScan_inv cells my c d hd 64 (idxI + d) [] (by simp) (by simp)
    rw [playDirs_cons,
      ih (fun e he => hds e (by simp [he])) _ _ (by rw [applyFlips_length]; exact hlen)]
    exact applyFlips_total my hmy _ cells hinv.1
      (fun j hj => ⟨by rw [hlen]; exact (hinv.2 j hj).1, (hinv.2 j hj).2⟩)

lemma playDirs_getD (my c idxI : Int) :
    ∀ (ds cells : List Int) (n j : Nat),
      (playDirs my c idxI ds (cells, n)).1.getD j 0 = cells.getD j 0 ∨
        (playDirs my c idxI ds (cells, n)).1.getD j 0 = my := by
  intro ds
  induction ds with
  | nil => intro cells n j; left; rfl
  | cons d ds ih =>
    intro cells n j
    rw [playDirs_cons]
    rcases ih (applyFlips cells my (playScan cells my c d 64 (idxI + d) []))
        (n + (playScan cells my c d 64 (idxI + d) []).length) j with h | h
    · rw [h]
      exact applyFlips_getD my _ cells j
    · right; exact h

lemma playDirs_snd_mono (my c idxI : Int) :
    ∀ (ds cells : List Int) (n : Nat), n ≤ (playDirs my c idxI ds (cells, n)).2 := by
  intro ds
  induction ds with
  | nil => intro cells n; exact Nat.le_refl n
  | cons d ds ih =>
    intro cells n
    rw [playDirs_cons]
    calc n ≤ n + (playScan cells my c d 64 (idxI + d) []).length := by omega
      _ ≤ _ := ih _ _

lemma playDirs_stagnant (my c idxI : Int) :
    ∀ (ds cells : List Int) (n : Nat),
      (playDirs my c idxI ds (cells, n)).2 = n →
      ∀ d ∈ ds, playScan cells my c d 64 (idxI + d) [] = [] := by
  intro ds
  induction ds with
  | nil => intro cells n _ d hd; simp at hd
  | cons d ds ih =>
    intro cells n h e he
    rw [playDirs_cons] at h
    have hmono := playDirs_snd_mono my c idxI ds
      (applyFlips cells my (playScan cells my c d 64 (idxI + d) []))
      (n + (playScan cells my c d 64 (idxI + d) []).length)
    have hlen : (playScan cells my c d 64 (idxI + d) []).length = 0 := by omega
    have hbuf : playScan cells my c d 64 (idxI + d) [] = [] :=
      List.eq_nil_of_length_eq_zero hlen
    rcases List.mem_cons.mp he with he | he
    · subst he; exact hbuf
    · apply ih cells n _ e he
      rw [hbuf] at h
      simpa using h

/-! ### Characterisation of play -/

lemma DIRS_ne_zero : ∀ d ∈ DIRS, d ≠ 0 := by decide

lemma playAux_black (b : Board) (idx : Nat) :
    (b.playAux idx).1.black_to_move = !b.black_to_move := rfl

lemma playAux_cells (b : Board) (idx : Nat) :
    (b.playAux idx).1.cells
      = (playDirs (myStone b.black_to_move) ((idx : Int) % 8) (idx : Int) DIRS
          (b.cells.set idx (myStone b.black_to_move), 0)).1 := rfl

lemma playAux_snd (b : Board) (idx : Nat) :
    (b.playAux idx).2
      = (playDirs (myStone b.black_to_move) ((idx : Int) % 8) (idx : Int) DIRS
          (b.cells.set idx (myStone b.black_to_move), 0)).2 := rfl

lemma counts_totalP (b : Board) : b.counts.1 + b.counts.2 = totalP b.cells := rfl

lemma play_of_legal {b : Board} {idx : Nat} (h1 : idx < 64)
    (h2 : b.is_legalAux idx = true) :
    b.play idx = some ((b.playAux idx).1, Except.ok (b.playAux idx).2) := by
  rw [Board.play, if_pos h1, if_pos h2]

lemma play_of_illegal {b : Board} {idx : Nat} (h1 : idx < 64)
    (h2 : b.is_legalAux idx = false) :
    b.play idx = some (b, Except.error PlayError.illegalMove) := by
  rw [Board.play, if_pos h1, if_neg (by rw [h2]; exact Bool.false_ne_true)]

lemma play_ok_inv {b : Board} {idx : Nat} {b' : Board} {n : Nat}
    (h : b.play idx = some (b', Except.ok n)) :
    idx < 64 ∧ b.is_legalAux idx = true ∧ b' = (b.playAux idx).1 ∧
      n = (b.playAux idx).2 := by
  rw [Board.play] at h
  by_cases h1 : idx < 64
  · rw [if_pos h1] at h
    by_cases h2 : b.is_legalAux idx
    · rw [if_pos h2] at h
      injection h with h
      have hb := congrArg Prod.fst h
      have hn := congrArg Prod.snd h
      simp only [] at hb hn
      injection hn with hn
      exact ⟨h1, h2, hb.symm, hn.symm⟩
    · rw [if_neg h2] at h
      injection h with h
      have hn := congrArg Prod.snd h
      exact absurd hn (by simp)
  · rw [if_neg h1] at h
    exact absurd h (by simp)

lemma play_error_inv {b : Board} {idx : Nat} {b' : Board} {e : PlayError}
    (h : b.play idx = some (b', Except.error e)) :
    idx < 64 ∧ b.is_legalAux idx = false ∧ b' = b ∧ e = PlayError.illegalMove := by
  rw [Board.play] at h
  by_cases h1 : idx < 64
  · rw [if_pos h1] at h
    by_cases h2 : b.is_legalAux idx
    · rw [if_pos h2] at h
      injection h with h
      have hn := congrArg Prod.snd h
      exact absurd hn (by simp)
    · rw [if_neg h2] at h
      injection h with h
      have hb := congrArg Prod.fst h
      simp only [] at hb
      exact ⟨h1, Bool.eq_false_iff.mpr h2, hb.symm, by cases e; rfl⟩
  · rw [if_neg h1] at h
    exact absurd h (by simp)

/-! ### Congruence: the engine reads only the 64 board cells -/

lemma is_legalAux_congr (b1 b2 : Board) (idx : Nat) (hidx : idx < 64)
    (hbk : b1.black_to_move = b2.black_to_move)
    (hpt : ∀ j : Nat, j < 64 → b1.cells.getD j 0 = b2.cells.getD j 0) :
    b1.is_legalAux idx = b2.is_legalAux idx := by
  rw [Board.is_legalAux, Board.is_legalAux, hpt idx hidx, hbk]
  by_cases h0 : b2.cells.getD idx 0 ≠ 0
  · rw [if_pos h0, if_pos h0]
  · rw [if_neg h0, if_neg h0]
    apply any_congr
    intro d _
    exact legalScan_congr b1.cells b2.cells (myStone b2.black_to_move)
      ((idx : Int) % 8) d hpt 64 ((idx : Int) + d) 0

lemma applyFlips_congr (my : Int) :
    ∀ (buf : List Nat) (c1 c2 : List Int), c1.length = c2.length →
      (∀ j : Nat, j < 64 → c1.getD j 0 = c2.getD j 0) →
      ∀ j : Nat, j < 64 →
        (applyFlips c1 my buf).getD j 0 = (applyFlips c2 my buf).getD j 0 := by
  intro buf
  induction buf with
  | nil => intro c1 c2 _ hpt j hj; exact hpt j hj
  | cons i is ih =>
    intro c1 c2 hlen hpt j hj
    rw [applyFlips, applyFlips]
    apply ih (c1.set i my) (c2.set i my)
      (by rw [List.length_set, List.length_set, hlen]) _ j hj
    intro j' hj'
    rw [getD_set, getD_set, hlen]
    by_cases hc : i = j' ∧ i < c2.length
    · rw [if_pos hc, if_pos hc]
    · rw [if_neg hc, if_neg hc, hpt j' hj']

lemma playDirs_congr (my c idxI : Int) :
    ∀ (ds c1 c2 : List Int) (n : Nat), c1.length = c2.length →
      (∀ j : Nat, j < 64 → c1.getD j 0 = c2.getD j 0) →
      (playDirs my c idxI ds (c1, n)).2 = (playDirs my c idxI ds (c2, n)).2 ∧
        ∀ j : Nat, j < 64 → (playDirs my c idxI ds (c1, n)).1.getD j 0
          = (playDirs my c idxI ds (c2, n)).1.getD j 0 := by
  intro ds
  induction ds with
  | nil => intro c1 c2 n _ hpt; exact ⟨rfl, hpt⟩
  | cons d ds ih =>
    intro c1 c2 n hlen hpt
    have hbuf : playScan c1 my c d 64 (idxI + d) []
        = playScan c2 my c d 64 (idxI + d) [] :=
      playScan_congr c1 c2 my c d hpt 64 (idxI + d) []
    rw [playDirs_cons, playDirs_cons, hbuf]
    apply ih
    · rw [applyFlips_length, applyFlips_length, hlen]
    · exact applyFlips_congr my _ c1 c2 hlen hpt

lemma playAux_congr (b1 b2 : Board) (idx : Nat) (_hidx : idx < 64)
    (h1 : b1.WF) (h2 : b2.WF) (hbk : b1.black_to_move = b2.black_to_move)
    (hpt : ∀ j : Nat, j < 64 → b1.cells.getD j 0 = b2.cells.getD j 0) :
    (b1.playAux idx).2 = (b2.playAux idx).2 ∧
      ∀ j : Nat, j < 64 →
        (b1.playAux idx).1.cells.getD j 0 = (b2.playAux idx).1.cells.getD j 0 := by
  have hlen : (b1.cells.set idx (myStone b2.black_to_move)).length
      = (b2.cells.set idx (myStone b2.black_to_move)).length := by
    rw [List.length_set, List.length_set, h1, h2]
  have hpt' : ∀ j : Nat, j < 64 →
      (b1.cells.set idx (myStone b2.black_to_move)).getD j 0
        = (b2.cells.set idx (myStone b2.black_to_move)).getD j 0 := by
    intro j hj
    rw [getD_set, getD_set, h1, h2]
    by_cases hc : idx = j ∧ idx < 64
    · rw [if_pos hc, if_pos hc]
    · rw [if_neg hc, if_neg hc, hpt j hj]
  have := playDirs_congr (myStone b2.black_to_move) ((idx : Int) % 8) (idx : Int)
    DIRS _ _ 0 hlen hpt'
  constructor
  · rw [playAux_snd, playAux_snd, hbk]
    exact this.1
  · intro j hj
    rw [playAux_cells, playAux_cells, hbk]
    exact this.2 j hj

/-! ### Sequences of plays -/

lemma playSeq_cons_inv {b : Board} {i : Nat} {is : List Nat} {b' : Board}
    (h : b.playSeq (i :: is) = some b') :
    ∃ b1 n, b.play i = some (b1, Except.ok n) ∧ b1.playSeq is = some b' := by
  rw [Board.playSeq] at h
  cases hp : b.play i with
  | none => rw [hp] at h; exact absurd h (by simp)
  | some p =>
    obtain ⟨b1, e⟩ := p
    rw [hp] at h
    cases e with
    | error e => exact absurd h (by simp)
    | ok n => exact ⟨b1, n, rfl, h⟩

lemma playSeq_black : ∀ (l : List Nat) (b b' : Board), b.playSeq l = some b' →
    b'.black_to_move = (b.black_to_move == decide (l.length % 2 = 0)) := by
  intro l
  induction l with
  | nil =>
    intro b b' h
    have hb : b' = b := by
      rw [Board.playSeq] at h
      injection h with h
      exact h.symm
    subst hb
    simp
  | cons i is ih =>
    intro b b' h
    obtain ⟨b1, n, hp, hseq⟩ := playSeq_cons_inv h
    have h1 : b1.black_to_move = !b.black_to_move := by
      rw [(play_ok_inv hp).2.2.1, playAux_black]
    have h2 := ih b1 b' hseq
    rw [h2, h1, List.length_cons]
    have hpar : decide ((is.length + 1) % 2 = 0) = !decide (is.length % 2 = 0) := by
      by_cases hh : is.length % 2 = 0
      · rw [decide_eq_true hh, show (is.length + 1) % 2 = 1 by omega]
        simp
      · rw [decide_eq_false hh, show (is.length + 1) % 2 = 0 by omega]
        simp
    rw [hpar]
    cases hdec : decide (is.length % 2 = 0) <;> cases b.black_to_move <;> rfl

/-! ### Claim theorems -/

/-- C1: the claim that `play` flips a direction's run exactly when that run
terminates in a current-side stone, flipping nothing in directions ending at
an empty cell, edge, or wrap, fails on the code: from `wrapBoardA`, playing
index 7 flips the whole anti-diagonal run of 7 white stones even though that
run ends at the board corner (cell 56) and is only "closed" by the wrapped
cell 63, so the geometric reading (`legalSpec`) calls the move illegal.  The
concrete part of the claim does hold: playing 19 from the start returns 1
flip and leaves counts (4, 1). -/
theorem play_flip_wrap_bug_eval :
    Board.new.play 19 = some ((Board.new.playAux 19).1, Except.ok (Board.new.playAux 19).2) ∧
    (Board.new.playAux 19).2 = 1 ∧
    (Board.new.playAux 19).1.counts = (4, 1) ∧
    wrapBoardA.is_legalAux 7 = true ∧
    (wrapBoardA.playAux 7).2 = 7 ∧
    (wrapBoardA.playAux 7).1.counts = (9, 0) ∧
    legalSpec wrapBoardA 7 = false :=
  ⟨play_of_legal (by decide) (by decide), by decide, by decide, by decide,
    by decide, by decide, by decide⟩

/-- C2: the claim that `is_legal` returns true iff the target cell is empty
and a run of opponent stones is bracketed with no empty-cell or board-edge
interruption fails on the code: on `wrapBoardB` the source's `is_legal 8`
returns true although the only candidate run (cells 9–15) is interrupted by
the right board edge, as the spec-modelled geometric `legalSpec` confirms.
On the starting position the two definitions agree at every index. -/
theorem is_legal_wrap_bug_eval :
    wrapBoardB.cells.getD 8 0 = 0 ∧
    wrapBoardB.is_legal 8 = some true ∧
    legalSpec wrapBoardB 8 = false ∧
    ((List.range 64).all fun i => Board.new.is_legalAux i == legalSpec Board.new i) = true :=
  ⟨by decide, by decide, by decide, by decide⟩

/-- C3: the claim that the directional scans never read or count a cell
reached by wrapping across a left or right board edge fails on the code: on
`wrapBoardC`, scanning left from index 15 walks the row down to cell 8
(column 0), then wraps to cell 7 (column 7 of the row above), reads it,
counts it in the opponent run, and `play 15` even flips it from white to
black, returning 8 flips. -/
theorem no_wrap_violated_eval :
    wrapBoardC.cells.getD 7 0 = -1 ∧
    wrapBoardC.is_legal 15 = some true ∧
    (wrapBoardC.playAux 15).2 = 8 ∧
    (wrapBoardC.playAux 15).1.cells.getD 7 0 = 1 ∧
    legalSpec wrapBoardC 15 = false :=
  ⟨by decide, by decide, by decide, by decide, by decide⟩

/-- C4: for `idx` in 0–63, `play idx` fails with the IllegalMove error iff
`is_legal idx` is false, and on failure the returned board is exactly the
input board: no cell and not the side to move has changed. -/
theorem play_illegal_iff_unchanged (b : Board) (idx : Nat) (hidx : idx < 64) :
    ((∃ b' : Board, b.play idx = some (b', Except.error PlayError.illegalMove)) ↔
        b.is_legal idx = some false) ∧
    ∀ (b' : Board) (e : PlayError), b.play idx = some (b', Except.error e) →
      b' = b ∧ e = PlayError.illegalMove := by
  constructor
  · constructor
    · rintro ⟨b', hb'⟩
      have h := play_error_inv hb'
      rw [Board.is_legal, if_pos hidx, h.2.1]
    · intro h
      rw [Board.is_legal, if_pos hidx] at h
      injection h with h
      exact ⟨b, play_of_illegal hidx h⟩
  · intro b' e h
    have := play_error_inv h
    exact ⟨this.2.2.1, this.2.2.2⟩

/-- C4 witness: on the starting board, playing the occupied cell 27 fails
with IllegalMove and returns the board unchanged. -/
theorem play_illegal_iff_unchanged_witness :
    ((∃ b' : Board, Board.new.play 27 = some (b', Except.error PlayError.illegalMove)) ↔
        Board.new.is_legal 27 = some false) ∧
    ∀ (b' : Board) (e : PlayError), Board.new.play 27 = some (b', Except.error e) →
      b' = Board.new ∧ e = PlayError.illegalMove :=
  play_illegal_iff_unchanged Board.new 27 (by decide)

/-- C5: a board produced by `new`, and any board after `reset`, has cells 27
and 36 white, cells 28 and 35 black, all other 60 cells empty, black to
move, and counts (2, 2); `reset` restores this state from any board. -/
theorem initial_state_spec :
    Board.new.cells.getD 27 0 = -1 ∧ Board.new.cells.getD 36 0 = -1 ∧
    Board.new.cells.getD 28 0 = 1 ∧ Board.new.cells.getD 35 0 = 1 ∧
    ((List.range 64).all fun i =>
      decide (i = 27 ∨ i = 28 ∨ i = 35 ∨ i = 36 ∨ Board.new.cells.getD i 0 = 0)) = true ∧
    Board.new.cells.length = 64 ∧
    Board.new.black_to_move = true ∧
    Board.new.counts = (2, 2) ∧
    ∀ b : Board, b.reset = Board.new :=
  ⟨by decide, by decide, by decide, by decide, by decide, by decide, rfl,
    by decide, fun _ => rfl⟩

/-- C6: `legal_moves` returns exactly the indices 0–63 for which `is_legal`
holds, in ascending order, and on the starting board it is [19, 26, 37, 44]. -/
theorem legal_moves_spec :
    (∀ (b : Board) (i : Nat), i ∈ b.legal_moves ↔ i < 64 ∧ b.is_legal i = some true) ∧
    (∀ b : Board, b.legal_moves.Sorted (· < ·)) ∧
    Board.new.legal_moves = [19, 26, 37, 44] := by
  refine ⟨?_, ?_, by decide⟩
  · intro b i
    rw [Board.legal_moves, List.mem_filter, List.mem_range, Board.is_legal]
    constructor
    · rintro ⟨h1, h2⟩
      rw [if_pos h1, h2]
      exact ⟨h1, rfl⟩
    · rintro ⟨h1, h2⟩
      rw [if_pos h1] at h2
      injection h2 with h2
      exact ⟨h1, h2⟩
  · intro b
    exact List.Pairwise.filter _ (List.pairwise_lt_range 64)

/-- C7: every successful `play` increases the total stone count by exactly
one, and no cell holding a black or white stone before the call is empty
after it. -/
theorem play_conservation (b : Board) (idx : Nat) (hwf : b.WF) (hidx : idx < 64)
    (hleg : b.is_legalAux idx = true) :
    (b.playAux idx).1.counts.1 + (b.playAux idx).1.counts.2
        = b.counts.1 + b.counts.2 + 1 ∧
      ∀ j : Nat, (b.cells.getD j 0 = 1 ∨ b.cells.getD j 0 = -1) →
        (b.playAux idx).1.cells.getD j 0 ≠ 0 := by
  have hmy := myStone_cases b.black_to_move
  have hmy0 := myStone_ne_zero b.black_to_move
  have htgt := is_legalAux_target hleg
  have hidx' : idx < b.cells.length := by rw [hwf]; exact hidx
  have hlen : (b.cells.set idx (myStone b.black_to_move)).length = 64 := by
    rw [List.length_set]; exact hwf
  have hc1 := countP_set (fun s => s == 1) b.cells idx (myStone b.black_to_move) hidx'
  have hc2 := countP_set (fun s => s == -1) b.cells idx (myStone b.black_to_move) hidx'
  rw [htgt] at hc1 hc2
  have hplace : totalP (b.cells.set idx (myStone b.black_to_move))
      = totalP b.cells + 1 := by
    unfold totalP
    rcases hmy with h | h <;> rw [h] at hc1 hc2 ⊢ <;> simp at hc1 hc2 <;> omega
  constructor
  · rw [counts_totalP, counts_totalP, playAux_cells,
      playDirs_total (myStone b.black_to_move) ((idx : Int) % 8) (idx : Int) hmy
        DIRS DIRS_ne_zero _ 0 hlen, hplace]
  · intro j hj
    have h1 := playDirs_getD (myStone b.black_to_move) ((idx : Int) % 8) (idx : Int)
      DIRS (b.cells.set idx (myStone b.black_to_move)) 0 j
    rw [← playAux_cells] at h1
    rcases h1 with h1 | h1
    · rw [h1, getD_set]
      by_cases hc : idx = j ∧ idx < b.cells.length
      · rw [if_pos hc]; exact hmy0
      · rw [if_neg hc]
        rcases hj with hj | hj <;> rw [hj] <;> decide
    · rw [h1]; exact hmy0

/-- C7 witness: playing 19 on the starting board takes the total from 4
stones to 5, and leaves the black stone at cell 28 on the board. -/
theorem play_conservation_witness :
    ((Board.new.playAux 19).1.counts.1 + (Board.new.playAux 19).1.counts.2
        = Board.new.counts.1 + Board.new.counts.2 + 1) ∧
      (Board.new.playAux 19).1.cells.getD 28 0 ≠ 0 :=
  ⟨(play_conservation Board.new 19 (by decide) (by decide) (by decide)).1,
    (play_conservation Board.new 19 (by decide) (by decide) (by decide)).2 28
      (by decide)⟩

/-- C8: the side to move toggles exactly once on every successful play, a
failed play returns the board unchanged, and after a sequence of N
successful plays from the starting board the side to move is black iff N is
even. -/
theorem turn_alternation :
    (∀ (b : Board) (idx : Nat) (b' : Board) (n : Nat),
        b.play idx = some (b', Except.ok n) → b'.black_to_move = !b.black_to_move) ∧
    (∀ (b : Board) (idx : Nat) (b' : Board) (e : PlayError),
        b.play idx = some (b', Except.error e) → b' = b) ∧
    (∀ (l : List Nat) (b' : Board), Board.new.playSeq l = some b' →
        b'.black_to_move = decide (l.length % 2 = 0)) := by
  refine ⟨?_, ?_, ?_⟩
  · intro b idx b' n h
    rw [(play_ok_inv h).2.2.1, playAux_black]
  · intro b idx b' e h
    exact (play_error_inv h).2.2.1
  · intro l b' h
    have := playSeq_black l Board.new b' h
    rw [this]
    show (true == decide (l.length % 2 = 0)) = decide (l.length % 2 = 0)
    cases hdec : decide (l.length % 2 = 0) <;> rfl

/-- C8 witness: playing 19 on the starting board hands the move to white,
an illegal play at 0 leaves the board unchanged, and the empty play
sequence leaves black to move. -/
theorem turn_alternation_witness :
    (Board.new.playAux 19).1.black_to_move = !Board.new.black_to_move ∧
    Board.new = Board.new ∧
    Board.new.black_to_move = decide (([] : List Nat).length % 2 = 0) :=
  ⟨turn_alternation.1 Board.new 19 (Board.new.playAux 19).1 (Board.new.playAux 19).2
      (play_of_legal (by decide) (by decide)),
    turn_alternation.2.1 Board.new 0 Board.new PlayError.illegalMove
      (play_of_illegal (by decide) (by decide)),
    turn_alternation.2.2 [] Board.new rfl⟩

/-- C9: neither `is_legal` nor `play` range-checks its index: for `idx`
in 0–63 both return a value (no panic, every access in bounds, and the
results depend only on the 64 board cells and the side to move), while for
`idx ≥ 64` both panic on the very first `cells[idx]` access instead of
returning a defined error. -/
theorem index_bounds_policy :
    (∀ (b : Board) (idx : Nat), idx < 64 →
        (b.is_legal idx).isSome = true ∧ (b.play idx).isSome = true) ∧
    (∀ (b : Board) (idx : Nat), 64 ≤ idx →
        b.is_legal idx = none ∧ b.play idx = none) ∧
    (∀ (b1 b2 : Board) (idx : Nat), idx < 64 →
        b1.black_to_move = b2.black_to_move →
        (∀ j : Nat, j < 64 → b1.cells.getD j 0 = b2.cells.getD j 0) →
        b1.is_legalAux idx = b2.is_legalAux idx) ∧
    (∀ (b1 b2 : Board) (idx : Nat), idx < 64 → b1.WF → b2.WF →
        b1.black_to_move = b2.black_to_move →
        (∀ j : Nat, j < 64 → b1.cells.getD j 0 = b2.cells.getD j 0) →
        (b1.playAux idx).2 = (b2.playAux idx).2 ∧
          ∀ j : Nat, j < 64 →
            (b1.playAux idx).1.cells.getD j 0 = (b2.playAux idx).1.cells.getD j 0) := by
  refine ⟨?_, ?_, is_legalAux_congr, playAux_congr⟩
  · intro b idx h
    constructor
    · rw [Board.is_legal, if_pos h]; rfl
    · rw [Board.play, if_pos h]
      by_cases h2 : b.is_legalAux idx
      · rw [if_pos h2]; rfl
      · rw [if_neg h2]; rfl
  · intro b idx h
    constructor
    · rw [Board.is_legal, if_neg (by omega)]
    · rw [Board.play, if_neg (by omega)]

/-- C9 witness: at index 64 both operations panic (return no value), and at
index 0 both return a value. -/
theorem index_bounds_policy_witness :
    ((Board.new.is_legal 0).isSome = true ∧ (Board.new.play 0).isSome = true) ∧
    Board.new.is_legal 64 = none ∧ Board.new.play 64 = none :=
  ⟨index_bounds_policy.1 Board.new 0 (by decide),
    index_bounds_policy.2.1 Board.new 64 (by decide)⟩

/-- C10: whenever `is_legal idx` holds with `idx` in 0–63, `play idx`
succeeds and returns a flip count of at least 1. -/
theorem legal_play_flips_pos (b : Board) (idx : Nat) (hidx : idx < 64)
    (hleg : b.is_legalAux idx = true) :
    b.play idx = some ((b.playAux idx).1, Except.ok (b.playAux idx).2) ∧
      1 ≤ (b.playAux idx).2 := by
  refine ⟨play_of_legal hidx hleg, ?_⟩
  by_contra hlt
  have hz : (b.playAux idx).2 = 0 := by omega
  rw [playAux_snd] at hz
  have hstag := playDirs_stagnant (myStone b.black_to_move) ((idx : Int) % 8)
    (idx : Int) DIRS (b.cells.set idx (myStone b.black_to_move)) 0 hz
  have hex : ∃ d, d ∈ DIRS ∧
      legalScan b.cells (myStone b.black_to_move) ((idx : Int) % 8) d 64
        ((idx : Int) + d) 0 = true := by
    rw [Board.is_legalAux] at hleg
    by_cases h0 : b.cells.getD idx 0 ≠ 0
    · rw [if_pos h0] at hleg
      exact absurd hleg (by simp)
    · rw [if_neg h0] at hleg
      exact List.any_eq_true.mp hleg
  obtain ⟨d, hd, hscan⟩ := hex
  have hdne : d ≠ 0 := DIRS_ne_zero d hd
  have h1 : (idx : Int) + d = (idx : Int) + ((1 : Nat) : Int) * d := by
    push_cast; ring
  have htrans : legalScan (b.cells.set idx (myStone b.black_to_move))
      (myStone b.black_to_move) ((idx : Int) % 8) d 64 ((idx : Int) + d) 0 = true := by
    rw [h1, legalScan_set_ray b.cells (myStone b.black_to_move) ((idx : Int) % 8) d
      (myStone b.black_to_move) idx hdne 64 1 0 (by omega), ← h1]
    exact hscan
  have hpos := legalScan_playScan (b.cells.set idx (myStone b.black_to_move))
    (myStone b.black_to_move) ((idx : Int) % 8) d 64 ((idx : Int) + d) 0 [] rfl htrans
  rw [hstag d hd] at hpos
  exact absurd hpos (by simp)

/-- C10 witness: 19 is legal on the starting board, the play succeeds, and
it flips at least one stone. -/
theorem legal_play_flips_pos_witness :
    Board.new.play 19 = some ((Board.new.playAux 19).1, Except.ok (Board.new.playAux 19).2) ∧
      1 ≤ (Board.new.playAux 19).2 :=
  legal_play_flips_pos Board.new 19 (by decide) (by decide)

end Reversi
